import Mathlib

/-!
Shallow embedding of the EndBASIC tokenizer (`src/core/src/lexer.rs`).

The lexer consumes a peekable stream of `Result<CharSpan, io::Error>` items
produced by the external `CharReader` and produces `TokenSpan` values one at a
time.  We model the character stream as a `List RdItem` (each item is either a
decoded character with its position or an I/O error), and every lexer routine
as a pure function from the remaining stream to a pair of the produced result
(`Except IoError TokenSpan`, mirroring `io::Result<TokenSpan>`) and the stream
that remains, mirroring the in-place mutation of the Rust `Lexer`.

The reader's `next_pos_watcher` is consulted by the Rust code only after the
stream reports exhaustion, at which point it holds the position one past the
last character of the input; we model it as an explicit `endPos` argument.
-/

namespace EndBasic

/-- A line/column position, both 1-based, as produced by the character reader. -/
structure LineCol where
  line : Nat
  col : Nat
deriving DecidableEq, Repr

/-- A single decoded character together with its position (`reader::CharSpan`). -/
structure CharSpan where
  ch : Char
  pos : LineCol
deriving DecidableEq, Repr

/-- Opaque payload of an `io::Error`; the lexer only moves these around. -/
abbrev IoError := String

/-- One item of the character stream: a decoded character or an I/O error,
modelling one `Option<Result<CharSpan, io::Error>>` step of the peekable
reader (`None` is modelled by the end of the list). -/
inductive RdItem where
  | ok (cs : CharSpan)
  | err (e : IoError)
deriving DecidableEq, Repr

/-- The remaining character stream. -/
abbrev Input := List RdItem

/-- The backslash character, spelled via its code point. -/
def bslash : Char := Char.ofNat 92

/-- The single-quote character, spelled via its code point. -/
def squote : Char := Char.ofNat 39

/-- Variable type annotation (`ast::VarType`), as consumed by the lexer. -/
inductive VarType where
  | Auto
  | Boolean
  | Double
  | Integer
  | Text
deriving DecidableEq, Repr

/-- A variable reference: a name with an optional type (`ast::VarRef`). -/
structure VarRef where
  name : String
  vtype : VarType
deriving DecidableEq, Repr

/-- The token alphabet (`lexer::Token`).  `Double` carries the source numeral
text instead of an `f64` value: the floating-point payload is never inspected
by the lexer and `str::parse::<f64>` cannot fail on the digits-dot-digits
numerals the lexer hands to it, so only the text matters here. -/
inductive Token where
  | Eof
  | Eol
  | Bad (s : String)
  | Boolean (b : Bool)
  | Double (s : String)
  | Integer (i : Int)
  | Text (s : String)
  | Symbol (v : VarRef)
  | Label (s : String)
  | Comma
  | Semicolon
  | LeftParen
  | RightParen
  | Plus
  | Minus
  | Multiply
  | Divide
  | Modulo
  | Exponent
  | Equal
  | NotEqual
  | Less
  | LessEqual
  | Greater
  | GreaterEqual
  | And
  | Not
  | Or
  | Xor
  | Data
  | Else
  | Elseif
  | End
  | For
  | Goto
  | If
  | Next
  | Step
  | Then
  | To
  | Wend
  | While
  | Dim
  | As
  | BooleanName
  | DoubleName
  | IntegerName
  | TextName
deriving DecidableEq, Repr

/-- A token with its start position and length (`lexer::TokenSpan`). -/
structure TokenSpan where
  token : Token
  pos : LineCol
  length : Nat
deriving DecidableEq, Repr

deriving instance DecidableEq for Except

/-- The result of one lexer routine: the produced `io::Result<TokenSpan>` and
the stream that remains after the routine's consumption. -/
abbrev Step := Except IoError TokenSpan × Input

/-- Number of bytes of the UTF-8 encoding of a character, modelling
`char::len_utf8` (equal to Lean's `Char.utf8Size`). -/
def charBytes (c : Char) : Nat := c.utf8Size

/-- Number of bytes of the UTF-8 encoding of a list of characters. -/
def listBytes : List Char → Nat
  | [] => 0
  | c :: cs => charBytes c + listBytes cs

/-- Number of bytes of the UTF-8 encoding of a string, modelling Rust's
`String::len` as used for the `length` fields built by the lexer. -/
def strBytes (s : String) : Nat := listBytes s.data

/-- Character classifier `CharOps::is_space` (lexer.rs:184-188). -/
def isSpace (c : Char) : Bool := c = ' ' || c = '\t' || c = '\r'

/-- Character classifier `CharOps::is_separator` (lexer.rs:176-182). -/
def isSeparator (c : Char) : Bool :=
  c = '\n' || c = ':' || c = '(' || c = ')' || c = squote || c = '=' || c = '<' ||
    c = '>' || c = ';' || c = ',' || c = '+' || c = '-' || c = '*' || c = '/' ||
    c = '^' || isSpace c

/-- Character classifier `CharOps::is_word` (lexer.rs:190-195).  Rust's
`char::is_alphanumeric` is the Unicode property; we model its restriction to
ASCII (underscore, letters, digits), which agrees with Rust on every ASCII
character.  All concrete inputs used below are ASCII-only in word positions. -/
def isWord (c : Char) : Bool := c = '_' || c.isAlphanum

/-- The loop of `Lexer::handle_bad_read` (lexer.rs:244-262): skip characters
until the next separator or EOF, counting them into `len` (which starts at 1
for the offending character); an I/O error from the reader is consumed and
propagated. -/
def handleBadLoop (msg : String) (firstPos : LineCol) (len : Nat) : Input → Step
  | [] => (.ok ⟨.Bad msg, firstPos, len⟩, [])
  | .ok cs :: rest =>
      if isSeparator cs.ch then (.ok ⟨.Bad msg, firstPos, len⟩, .ok cs :: rest)
      else handleBadLoop msg firstPos (len + 1) rest
  | .err e :: rest => (.error e, rest)

/-- `Lexer::handle_bad_read` (lexer.rs:244-262). -/
def handle_bad_read (msg : String) (firstPos : LineCol) (inp : Input) : Step :=
  handleBadLoop msg firstPos 1 inp

/-- `str::parse::<i32>` restricted to the all-ASCII-digit strings that
`Lexer::consume_number` builds in its integer branch: the value of the digit
string, or the overflow message Rust prints for `PosOverflow`. -/
def digitsVal (s : String) : Nat :=
  s.data.foldl (fun a c => a * 10 + (c.toNat - 48)) 0

/-- Outcome of parsing a digit string as a 32-bit signed integer. -/
def parseI32 (s : String) : Except String Int :=
  if digitsVal s ≤ 2147483647 then .ok (digitsVal s)
  else .error "number too large to fit in target type"

/-- The post-loop half of `Lexer::consume_number` (lexer.rs:293-309): classify
the accumulated literal `s`.  The `f64` parse of a digits-dot-digits numeral
cannot fail, so the double branch always succeeds. -/
def finishNumber (firstPos : LineCol) (s : String) (foundDot : Bool) (inp : Input) : Step :=
  if foundDot then
    if s.endsWith "." then handle_bad_read "Unknown character: ." firstPos inp
    else (.ok ⟨.Double s, firstPos, strBytes s⟩, inp)
  else
    match parseI32 s with
    | .ok i => (.ok ⟨.Integer i, firstPos, strBytes s⟩, inp)
    | .error e => handle_bad_read ("Bad integer " ++ s ++ ": " ++ e) firstPos inp

/-- The loop of `Lexer::consume_number` (lexer.rs:269-292). -/
def numberLoop (firstPos : LineCol) (s : String) (foundDot : Bool) : Input → Step
  | [] => finishNumber firstPos s foundDot []
  | .ok cs :: rest =>
      if cs.ch = '.' then
        if foundDot then handle_bad_read "Too many dots in numeric literal" firstPos rest
        else numberLoop firstPos (s.push '.') true rest
      else if cs.ch.isDigit then numberLoop firstPos (s.push cs.ch) foundDot rest
      else if isSeparator cs.ch then finishNumber firstPos s foundDot (.ok cs :: rest)
      else
        handle_bad_read ("Unexpected character in numeric literal: " ++ String.singleton cs.ch)
          firstPos rest
  | .err e :: rest => (.error e, rest)

/-- `Lexer::consume_number` (lexer.rs:265-310). -/
def consume_number (first : CharSpan) (inp : Input) : Step :=
  numberLoop first.pos (String.singleton first.ch) false inp

/-- `Lexer::consume_operator` (lexer.rs:313-336).  Only called by `read` with
`first.ch` equal to `<` or `>`; the Rust `panic!` arm for any other first
character is unreachable from `read` and is not modelled (the fallthrough
below behaves as the `>` arms). -/
def consume_operator (first : CharSpan) (inp : Input) : Step :=
  match inp with
  | .err e :: rest => (.error e, rest)
  | .ok cs :: rest =>
      if first.ch = '<' && cs.ch = '>' then (.ok ⟨.NotEqual, first.pos, 2⟩, rest)
      else if first.ch = '<' && cs.ch = '=' then (.ok ⟨.LessEqual, first.pos, 2⟩, rest)
      else if first.ch = '<' then (.ok ⟨.Less, first.pos, 1⟩, .ok cs :: rest)
      else if cs.ch = '=' then (.ok ⟨.GreaterEqual, first.pos, 2⟩, rest)
      else (.ok ⟨.Greater, first.pos, 1⟩, .ok cs :: rest)
  | [] =>
      if first.ch = '<' then (.ok ⟨.Less, first.pos, 1⟩, [])
      else (.ok ⟨.Greater, first.pos, 1⟩, [])

/-- `Lexer::consume_rest_of_line` (lexer.rs:484-498): discard characters until
a newline (producing `Eol` at the newline's position) or exhaustion (producing
`Eof` stamped with the reader's next-position snapshot `endPos`). -/
def consume_rest_of_line (endPos : LineCol) : Input → Step
  | [] => (.ok ⟨.Eof, endPos, 0⟩, [])
  | .ok cs :: rest =>
      if cs.ch = '\n' then (.ok ⟨.Eol, cs.pos, 1⟩, rest)
      else consume_rest_of_line endPos rest
  | .err e :: rest => (.error e, rest)

/-- The keyword table of `Lexer::consume_symbol` (lexer.rs:388-416), minus the
`REM` arm which does not produce a token of its own: each uppercased spelling
paired with the dedicated token its match arm produces. -/
def keywordTable : List (String × Token) :=
  [("AND", .And), ("AS", .As), ("BOOLEAN", .BooleanName), ("DATA", .Data), ("DIM", .Dim),
   ("DOUBLE", .DoubleName), ("ELSE", .Else), ("ELSEIF", .Elseif), ("END", .End),
   ("FALSE", .Boolean false), ("FOR", .For), ("GOTO", .Goto), ("IF", .If),
   ("INTEGER", .IntegerName), ("MOD", .Modulo), ("NEXT", .Next), ("NOT", .Not),
   ("OR", .Or), ("STEP", .Step), ("STRING", .TextName), ("THEN", .Then), ("TO", .To),
   ("TRUE", .Boolean true), ("WEND", .Wend), ("WHILE", .While), ("XOR", .Xor)]

/-- Look up an uppercased buffer in the keyword table. -/
def keywordToken (u : String) : Option Token :=
  (keywordTable.find? (fun p => p.1 = u)).map Prod.snd

/-- Rust's `str::to_uppercase` as used for keyword lookup: uppercase every
character.  Only the ASCII mapping is modelled (as with `isWord`), which
agrees with Rust on every ASCII string; keyword spellings are all ASCII. -/
def toUpperStr (s : String) : String := ⟨s.data.map Char.toUpper⟩

/-- The post-loop half of `Lexer::consume_symbol` (lexer.rs:385-418): add the
buffer's byte length to the sigil contribution `tlen`, then resolve the
uppercased buffer against the keyword table (this happens whether or not a
sigil was seen); `REM` discards the rest of the line, any other match yields
its dedicated token, and a non-match yields a `Symbol`. -/
def finishSymbol (endPos firstPos : LineCol) (s : String) (vt : VarType) (tlen : Nat)
    (inp : Input) : Step :=
  if toUpperStr s = "REM" then consume_rest_of_line endPos inp
  else
    match keywordToken (toUpperStr s) with
    | some t => (.ok ⟨t, firstPos, tlen + strBytes s⟩, inp)
    | none => (.ok ⟨.Symbol ⟨s, vt⟩, firstPos, tlen + strBytes s⟩, inp)

/-- The loop of `Lexer::consume_symbol` (lexer.rs:346-384): accumulate word
characters; a separator ends the symbol; a type sigil sets the variable type,
is consumed, adds one to the length, and ends the symbol; any other character
is a recoverable error. -/
def symbolLoop (endPos firstPos : LineCol) (s : String) (vt : VarType) (tlen : Nat) :
    Input → Step
  | [] => finishSymbol endPos firstPos s vt tlen []
  | .ok cs :: rest =>
      if isWord cs.ch then symbolLoop endPos firstPos (s.push cs.ch) vt tlen rest
      else if isSeparator cs.ch then finishSymbol endPos firstPos s vt tlen (.ok cs :: rest)
      else if cs.ch = '?' then finishSymbol endPos firstPos s .Boolean (tlen + 1) rest
      else if cs.ch = '#' then finishSymbol endPos firstPos s .Double (tlen + 1) rest
      else if cs.ch = '%' then finishSymbol endPos firstPos s .Integer (tlen + 1) rest
      else if cs.ch = '$' then finishSymbol endPos firstPos s .Text (tlen + 1) rest
      else
        handle_bad_read ("Unexpected character in symbol: " ++ String.singleton cs.ch)
          firstPos rest
  | .err e :: rest => (.error e, rest)

/-- `Lexer::consume_symbol` (lexer.rs:341-419). -/
def consume_symbol (first : CharSpan) (endPos : LineCol) (inp : Input) : Step :=
  symbolLoop endPos first.pos (String.singleton first.ch) .Auto 0 inp

/-- The loop of `Lexer::consume_text` (lexer.rs:428-452): while not escaping,
a backslash starts an escape (it is consumed and not copied), the delimiter
closes the literal, and any other character (newlines included) is copied;
while escaping, the next character is copied verbatim whatever it is.
Exhaustion before the closing delimiter is an incomplete string. -/
def textLoop (delim : CharSpan) (s : String) (escaping : Bool) : Input → Step
  | [] => handle_bad_read ("Incomplete string due to EOF: " ++ s) delim.pos []
  | .ok cs :: rest =>
      if escaping then textLoop delim (s.push cs.ch) false rest
      else if cs.ch = bslash then textLoop delim s true rest
      else if cs.ch = delim.ch then (.ok ⟨.Text s, delim.pos, strBytes s + 2⟩, rest)
      else textLoop delim (s.push cs.ch) escaping rest
  | .err e :: rest => (.error e, rest)

/-- `Lexer::consume_text` (lexer.rs:425-455). -/
def consume_text (delim : CharSpan) (inp : Input) : Step :=
  textLoop delim "" false inp

/-- The post-loop half of `Lexer::consume_label` (lexer.rs:475-479). -/
def finishLabel (first : CharSpan) (s : String) (inp : Input) : Step :=
  if s.isEmpty then (.ok ⟨.Bad "Empty label name", first.pos, 1⟩, inp)
  else (.ok ⟨.Label s, first.pos, strBytes s + 1⟩, inp)

/-- The loop of `Lexer::consume_label` (lexer.rs:460-474). -/
def labelLoop (first : CharSpan) (s : String) : Input → Step
  | [] => finishLabel first s []
  | .ok cs :: rest =>
      if isWord cs.ch then labelLoop first (s.push cs.ch) rest
      else if isSeparator cs.ch then finishLabel first s (.ok cs :: rest)
      else
        handle_bad_read ("Unexpected character in label: " ++ String.singleton cs.ch)
          first.pos rest
  | .err e :: rest => (.error e, rest)

/-- `Lexer::consume_label` (lexer.rs:458-480). -/
def consume_label (first : CharSpan) (inp : Input) : Step :=
  labelLoop first "" inp

/-- `Lexer::advance_and_read_next` (lexer.rs:502-511): skip spaces and return
the first non-space character, if any; consumed errors propagate. -/
def advance_and_read_next : Input → Except IoError (Option CharSpan) × Input
  | [] => (.ok none, [])
  | .ok cs :: rest =>
      if isSpace cs.ch then advance_and_read_next rest else (.ok (some cs), rest)
  | .err e :: rest => (.error e, rest)

/-- The dispatch of `Lexer::read` (lexer.rs:524-550) on the first character
`cs` of the next token, with `rest` the stream after `cs`: single-character
tokens are produced directly; everything else goes to the matching `consume_`
routine; an unknown character is a recoverable error. -/
def dispatch (endPos : LineCol) (cs : CharSpan) (rest : Input) : Step :=
  if cs.ch = '\n' || cs.ch = ':' then (.ok ⟨.Eol, cs.pos, 1⟩, rest)
  else if cs.ch = squote then consume_rest_of_line endPos rest
  else if cs.ch = '"' then consume_text cs rest
  else if cs.ch = ';' then (.ok ⟨.Semicolon, cs.pos, 1⟩, rest)
  else if cs.ch = ',' then (.ok ⟨.Comma, cs.pos, 1⟩, rest)
  else if cs.ch = '(' then (.ok ⟨.LeftParen, cs.pos, 1⟩, rest)
  else if cs.ch = ')' then (.ok ⟨.RightParen, cs.pos, 1⟩, rest)
  else if cs.ch = '+' then (.ok ⟨.Plus, cs.pos, 1⟩, rest)
  else if cs.ch = '-' then (.ok ⟨.Minus, cs.pos, 1⟩, rest)
  else if cs.ch = '*' then (.ok ⟨.Multiply, cs.pos, 1⟩, rest)
  else if cs.ch = '/' then (.ok ⟨.Divide, cs.pos, 1⟩, rest)
  else if cs.ch = '^' then (.ok ⟨.Exponent, cs.pos, 1⟩, rest)
  else if cs.ch = '=' then (.ok ⟨.Equal, cs.pos, 1⟩, rest)
  else if cs.ch = '<' || cs.ch = '>' then consume_operator cs rest
  else if cs.ch = '@' then consume_label cs rest
  else if cs.ch.isDigit then consume_number cs rest
  else if isWord cs.ch then consume_symbol cs endPos rest
  else handle_bad_read ("Unknown character: " ++ String.singleton cs.ch) cs.pos rest

/-- `Lexer::read` (lexer.rs:517-551): skip whitespace, then dispatch on the
first character of the next token.  `endPos` models the reader's
next-position snapshot, consulted only when the stream is exhausted. -/
def read (endPos : LineCol) (inp : Input) : Step :=
  match advance_and_read_next inp with
  | (.error e, rest) => (.error e, rest)
  | (.ok none, rest) => (.ok ⟨.Eof, endPos, 0⟩, rest)
  | (.ok (some cs), rest) => dispatch endPos cs rest

/-- `PeekableLexer` (lexer.rs:564-605): a lexer state plus an optional
buffered token. -/
structure PeekableLexer where
  endPos : LineCol
  inp : Input
  peeked : Option TokenSpan
deriving DecidableEq, Repr

/-- `PeekableLexer::read` (lexer.rs:599-604): take the buffered token if
present, otherwise delegate to the inner lexer. -/
def PeekableLexer.read (p : PeekableLexer) : Except IoError TokenSpan × PeekableLexer :=
  match p.peeked with
  | some t => (.ok t, { p with peeked := none })
  | none =>
      match EndBasic.read p.endPos p.inp with
      | (.ok t, rest) => (.ok t, { p with inp := rest })
      | (.error e, rest) => (.error e, { p with inp := rest })

/-- `PeekableLexer::peek` (lexer.rs:587-593): if the buffer is empty, read a
token and store it; an error from the inner read propagates before the buffer
is filled, leaving it empty. -/
def PeekableLexer.peek (p : PeekableLexer) : Except IoError TokenSpan × PeekableLexer :=
  match p.peeked with
  | some t => (.ok t, p)
  | none =>
      match EndBasic.read p.endPos p.inp with
      | (.ok t, rest) => (.ok t, { p with inp := rest, peeked := some t })
      | (.error e, rest) => (.error e, { p with inp := rest, peeked := none })

/-- Modelled from the spec: the external `CharReader` (src/core/src/reader.rs
is not part of the sources here).  Section 6.1 of the specification gives its
position-advance rules: after a character at `(line, col)` the next position
is `(line, col + 1)`, except that a newline moves to `(line + 1, 1)`.  The
established tab-width convention mentioned in section 8 is not modelled; no
concrete input used below contains a tab. -/
def advancePos (p : LineCol) (c : Char) : LineCol :=
  if c = '\n' then ⟨p.line + 1, 1⟩ else ⟨p.line, p.col + 1⟩

/-- Decode a character list into a positioned stream starting at `p`. -/
def mkItems (p : LineCol) : List Char → List RdItem
  | [] => []
  | c :: cs => .ok ⟨c, p⟩ :: mkItems (advancePos p c) cs

/-- The position one past the last character of the list, starting at `p`:
the final value of the reader's next-position watcher. -/
def finalPos (p : LineCol) : List Char → LineCol
  | [] => p
  | c :: cs => finalPos (advancePos p c) cs

/-- The character stream of a source string, positions starting at 1:1. -/
def mkInput (s : String) : Input := mkItems ⟨1, 1⟩ s.data

/-- The reader's next-position snapshot after exhausting a source string. -/
def mkEndPos (s : String) : LineCol := finalPos ⟨1, 1⟩ s.data

/-- Read one token from the start of a source string. -/
def readStr (s : String) : Step := read (mkEndPos s) (mkInput s)

/-- Drive the lexer to completion, mirroring the repository's `do_ok_test`
helper: collect tokens until `Eof` (inclusive) or a fatal error, with fuel. -/
def lexTokens : Nat → LineCol → Input → List (Except IoError TokenSpan)
  | 0, _, _ => []
  | n + 1, endPos, inp =>
      match read endPos inp with
      | (.ok ts, rest) =>
          if ts.token = .Eof then [.ok ts] else .ok ts :: lexTokens n endPos rest
      | (.error e, _) => [.error e]

/-- All tokens of a source string, `Eof` included. -/
def lexAll (s : String) : List (Except IoError TokenSpan) :=
  lexTokens (s.data.length + 1) (mkEndPos s) (mkInput s)

/-- The sigil table of `Lexer::consume_symbol` (lexer.rs:351-374): the
variable type selected by a trailing type-annotation character. -/
def sigilType (c : Char) : Option VarType :=
  if c = '?' then some .Boolean
  else if c = '#' then some .Double
  else if c = '%' then some .Integer
  else if c = '$' then some .Text
  else none

/-- Every item of the list is a character (no I/O errors). -/
def AllOk (l : Input) : Prop := ∀ i ∈ l, ∃ cs, i = RdItem.ok cs

/-- The stream is positioned at a separator character or at its end: the
re-synchronization guarantee after a recoverable error. -/
def Resync (l : Input) : Prop :=
  l = [] ∨ ∃ cs r, l = RdItem.ok cs :: r ∧ isSeparator cs.ch = true

/-- Shape invariants of a successfully produced token span: `Eof` is stamped
at the reader's final position with length zero and only at exhaustion; every
other token has positive length; `Text`, `Label` and `Symbol` lengths are the
UTF-8 byte counts of their payloads plus delimiters; after a `Bad` token the
stream is at a separator or exhausted. -/
structure OkShape (endPos : LineCol) (ts : TokenSpan) (rest : Input) : Prop where
  eof_shape : ts.token = Token.Eof → ts.length = 0 ∧ ts.pos = endPos ∧ rest = []
  len_pos : ts.token ≠ Token.Eof → 1 ≤ ts.length
  text_len : ∀ c, ts.token = Token.Text c → ts.length = strBytes c + 2
  label_len : ∀ l, ts.token = Token.Label l → ts.length = strBytes l + 1
  symbol_len : ∀ n vt, ts.token = Token.Symbol ⟨n, vt⟩ →
    ts.length = strBytes n + (if vt = VarType.Auto then 0 else 1)
  bad_resync : ∀ m, ts.token = Token.Bad m → Resync rest

/-- Full correctness envelope of one lexer step on `inp`: the consumed prefix
is well defined; on success it contains no I/O errors and the token satisfies
`OkShape`; on failure the reported error is one of the stream's error items. -/
def StepSpec (endPos : LineCol) (inp : Input) (st : Step) : Prop :=
  ∃ taken, inp = taken ++ st.2 ∧
    (∀ ts, st.1 = Except.ok ts → AllOk taken ∧ OkShape endPos ts st.2) ∧
    (∀ e, st.1 = Except.error e → RdItem.err e ∈ inp)

/-- Tokens that are neither `Eof`, `Bad`, `Text`, `Label` nor `Symbol`. -/
def plainTok : Token → Bool
  | .Eof => false
  | .Bad _ => false
  | .Text _ => false
  | .Label _ => false
  | .Symbol _ => false
  | _ => true

theorem strExt {s t : String} (h : s.data = t.data) : s = t := by
  cases s
  cases t
  exact congrArg String.mk h

theorem data_push (s : String) (c : Char) : (s.push c).data = s.data ++ [c] := by
  cases s
  rfl

theorem data_singleton (c : Char) : (String.singleton c).data = [c] := rfl

theorem listBytes_append (a b : List Char) :
    listBytes (a ++ b) = listBytes a + listBytes b := by
  induction a with
  | nil => simp [listBytes]
  | cons c cs ih => simp [listBytes, ih, Nat.add_assoc]

theorem strBytes_push (s : String) (c : Char) :
    strBytes (s.push c) = strBytes s + charBytes c := by
  simp [strBytes, data_push, listBytes_append, listBytes]

theorem charBytes_pos (c : Char) : 1 ≤ charBytes c := Char.utf8Size_pos c

theorem strBytes_pos {s : String} (h : s.data ≠ []) : 1 ≤ strBytes s := by
  cases hd : s.data with
  | nil => exact absurd hd h
  | cons c cs =>
      have : strBytes s = charBytes c + listBytes cs := by simp [strBytes, hd, listBytes]
      have := charBytes_pos c
      omega

theorem okShape_plain {ep : LineCol} {ts : TokenSpan} {rest : Input}
    (h : plainTok ts.token = true) (hl : 1 ≤ ts.length) : OkShape ep ts rest := by
  constructor <;> intros <;> simp_all [plainTok]

theorem okShape_eof {ep : LineCol} : OkShape ep ⟨Token.Eof, ep, 0⟩ [] := by
  constructor <;> intros <;> simp_all

theorem okShape_bad {ep p : LineCol} {m : String} {len : Nat} {rest : Input}
    (hr : Resync rest) (hl : 1 ≤ len) : OkShape ep ⟨Token.Bad m, p, len⟩ rest := by
  constructor <;> intros <;> simp_all

theorem okShape_text {ep p : LineCol} {c : String} {rest : Input} :
    OkShape ep ⟨Token.Text c, p, strBytes c + 2⟩ rest := by
  constructor <;> intros <;> simp_all

theorem okShape_label {ep p : LineCol} {l : String} {rest : Input} :
    OkShape ep ⟨Token.Label l, p, strBytes l + 1⟩ rest := by
  constructor <;> intros <;> simp_all

theorem okShape_symbol {ep p : LineCol} {n : String} {vt : VarType} {len : Nat} {rest : Input}
    (h : len = strBytes n + (if vt = VarType.Auto then 0 else 1)) (hl : 1 ≤ len) :
    OkShape ep ⟨Token.Symbol ⟨n, vt⟩, p, len⟩ rest := by
  constructor <;> intros <;> simp_all

theorem StepSpec.pure {ep : LineCol} {inp : Input} {ts : TokenSpan}
    (h : OkShape ep ts inp) : StepSpec ep inp (Except.ok ts, inp) := by
  refine ⟨[], by simp, ?_, ?_⟩
  · intro ts' hts
    cases hts
    exact ⟨by simp [AllOk], h⟩
  · intro e he
    cases he

theorem StepSpec.errHead {ep : LineCol} {rest : Input} {e : IoError} :
    StepSpec ep (RdItem.err e :: rest) (Except.error e, rest) := by
  refine ⟨[RdItem.err e], by simp, ?_, ?_⟩
  · intro ts hts
    cases hts
  · intro e' he
    cases he
    simp

theorem StepSpec.prepend {ep : LineCol} {pre rest : Input} {st : Step}
    (hpre : AllOk pre) (h : StepSpec ep rest st) : StepSpec ep (pre ++ rest) st := by
  obtain ⟨taken, hdec, hok, herr⟩ := h
  refine ⟨pre ++ taken, by simp [hdec], ?_, ?_⟩
  · intro ts hts
    obtain ⟨hall, hshape⟩ := hok ts hts
    refine ⟨?_, hshape⟩
    intro i hi
    rcases List.mem_append.mp hi with hi | hi
    · exact hpre i hi
    · exact hall i hi
  · intro e he
    have := herr e he
    exact List.mem_append.mpr (Or.inr this)

theorem StepSpec.consOk {ep : LineCol} {rest : Input} {st : Step} (cs : CharSpan)
    (h : StepSpec ep rest st) : StepSpec ep (RdItem.ok cs :: rest) st := by
  have h2 : AllOk [RdItem.ok cs] := by simp [AllOk]
  have h3 := StepSpec.prepend h2 h
  simpa using h3

theorem handleBadLoop_ok (msg : String) (fp : LineCol) :
    ∀ (inp : Input) (len : Nat) (ts : TokenSpan) (rest : Input),
    handleBadLoop msg fp len inp = (Except.ok ts, rest) →
    ∃ taken, inp = taken ++ rest ∧ ts = ⟨Token.Bad msg, fp, len + taken.length⟩ ∧
      (∀ i ∈ taken, ∃ cs, i = RdItem.ok cs ∧ isSeparator cs.ch = false) ∧ Resync rest := by
  intro inp
  induction inp with
  | nil =>
      intro len ts rest h
      simp only [handleBadLoop, Prod.mk.injEq, Except.ok.injEq] at h
      obtain ⟨h1, h2⟩ := h
      subst h1
      subst h2
      exact ⟨[], by simp, by simp, by simp, Or.inl rfl⟩
  | cons i rest' ih =>
      intro len ts rest h
      cases i with
      | ok cs =>
          by_cases hsep : isSeparator cs.ch
          · simp only [handleBadLoop, hsep, if_true, Prod.mk.injEq, Except.ok.injEq] at h
            obtain ⟨h1, h2⟩ := h
            subst h1
            subst h2
            refine ⟨[], by simp, by simp, by simp, ?_⟩
            exact Or.inr ⟨cs, rest', rfl, hsep⟩
          · simp only [handleBadLoop, hsep, if_false] at h
            obtain ⟨taken, hdec, hts, hall, hres⟩ := ih (len + 1) ts rest h
            refine ⟨RdItem.ok cs :: taken, by simp [hdec], ?_, ?_, hres⟩
            · rw [hts]
              simp
              omega
            · intro i hi
              rcases List.mem_cons.mp hi with hi | hi
              · exact ⟨cs, hi, by simpa using hsep⟩
              · exact hall i hi
      | err e =>
          simp only [handleBadLoop] at h
          simp at h

theorem handleBadLoop_stepSpec (msg : String) (fp : LineCol) {ep : LineCol} :
    ∀ (inp : Input) (len : Nat), 1 ≤ len →
    StepSpec ep inp (handleBadLoop msg fp len inp) := by
  intro inp
  induction inp with
  | nil =>
      intro len hlen
      simp only [handleBadLoop]
      exact StepSpec.pure (okShape_bad (Or.inl rfl) hlen)
  | cons i rest' ih =>
      intro len hlen
      cases i with
      | ok cs =>
          by_cases hsep : isSeparator cs.ch
          · simp only [handleBadLoop, hsep, if_true]
            exact StepSpec.pure (okShape_bad (Or.inr ⟨cs, rest', rfl, hsep⟩) hlen)
          · simp only [handleBadLoop, hsep, if_false]
            exact StepSpec.consOk cs (ih (len + 1) (by omega))
      | err e =>
          simp only [handleBadLoop]
          exact StepSpec.errHead

theorem handle_bad_read_stepSpec (msg : String) (fp : LineCol) {ep : LineCol} (inp : Input) :
    StepSpec ep inp (handle_bad_read msg fp inp) :=
  handleBadLoop_stepSpec msg fp inp 1 (by omega)

theorem push_data_ne (s : String) (c : Char) : (s.push c).data ≠ [] := by
  simp [data_push]

theorem finishNumber_stepSpec (fp : LineCol) {ep : LineCol} (s : String) (fd : Bool)
    (hs : s.data ≠ []) (inp : Input) : StepSpec ep inp (finishNumber fp s fd inp) := by
  unfold finishNumber
  split_ifs with h1 h2
  · exact handle_bad_read_stepSpec _ _ _
  · apply StepSpec.pure
    exact okShape_plain rfl (strBytes_pos hs)
  · cases hp : parseI32 s with
    | ok i =>
        simp only [hp]
        apply StepSpec.pure
        exact okShape_plain rfl (strBytes_pos hs)
    | error e =>
        simp only [hp]
        exact handle_bad_read_stepSpec _ _ _

theorem numberLoop_stepSpec (fp : LineCol) {ep : LineCol} :
    ∀ (inp : Input) (s : String) (fd : Bool), s.data ≠ [] →
    StepSpec ep inp (numberLoop fp s fd inp) := by
  intro inp
  induction inp with
  | nil =>
      intro s fd hs
      simp only [numberLoop]
      exact finishNumber_stepSpec fp s fd hs []
  | cons i rest ih =>
      intro s fd hs
      cases i with
      | err e =>
          simp only [numberLoop]
          exact StepSpec.errHead
      | ok cs =>
          simp only [numberLoop]
          split_ifs with h1 h2 h3 h4
          · exact StepSpec.consOk cs (handle_bad_read_stepSpec _ _ _)
          · exact StepSpec.consOk cs (ih (s.push '.') true (push_data_ne s _))
          · exact StepSpec.consOk cs (ih (s.push cs.ch) fd (push_data_ne s _))
          · exact finishNumber_stepSpec fp s fd hs _
          · exact StepSpec.consOk cs (handle_bad_read_stepSpec _ _ _)

theorem consume_number_stepSpec (first : CharSpan) {ep : LineCol} (inp : Input) :
    StepSpec ep inp (consume_number first inp) :=
  numberLoop_stepSpec first.pos inp (String.singleton first.ch) false (by simp [data_singleton])

theorem consume_operator_stepSpec (first : CharSpan) {ep : LineCol} (inp : Input) :
    StepSpec ep inp (consume_operator first inp) := by
  cases inp with
  | nil =>
      simp only [consume_operator]
      split_ifs <;>
        · apply StepSpec.pure
          exact okShape_plain rfl (by simp)
  | cons i rest =>
      cases i with
      | err e =>
          simp only [consume_operator]
          exact StepSpec.errHead
      | ok cs =>
          simp only [consume_operator]
          split_ifs <;>
            first
              | (apply StepSpec.consOk
                 apply StepSpec.pure
                 exact okShape_plain rfl (by simp))
              | (apply StepSpec.pure
                 exact okShape_plain rfl (by simp))

theorem consume_rest_of_line_stepSpec (ep : LineCol) :
    ∀ inp : Input, StepSpec ep inp (consume_rest_of_line ep inp) := by
  intro inp
  induction inp with
  | nil =>
      simp only [consume_rest_of_line]
      exact StepSpec.pure okShape_eof
  | cons i rest ih =>
      cases i with
      | err e =>
          simp only [consume_rest_of_line]
          exact StepSpec.errHead
      | ok cs =>
          simp only [consume_rest_of_line]
          split_ifs with h
          · apply StepSpec.consOk
            apply StepSpec.pure
            exact okShape_plain rfl (by simp)
          · exact StepSpec.consOk cs ih

theorem keywordToken_plain {u : String} {t : Token} (h : keywordToken u = some t) :
    plainTok t = true := by
  unfold keywordToken at h
  cases hf : keywordTable.find? (fun p => p.1 = u) with
  | none =>
      rw [hf] at h
      cases h
  | some p =>
      rw [hf] at h
      simp at h
      have hm := List.mem_of_find?_eq_some hf
      have htab : ∀ q ∈ keywordTable, plainTok q.2 = true := by decide
      rw [← h]
      exact htab p hm

theorem finishSymbol_stepSpec (fp : LineCol) (ep : LineCol) (s : String) (vt : VarType)
    (tlen : Nat) (hs : s.data ≠ []) (ht : tlen = if vt = VarType.Auto then 0 else 1)
    (inp : Input) : StepSpec ep inp (finishSymbol ep fp s vt tlen inp) := by
  unfold finishSymbol
  split_ifs with hrem
  · exact consume_rest_of_line_stepSpec ep inp
  · cases hk : keywordToken (toUpperStr s) with
    | some t =>
        simp only [hk]
        apply StepSpec.pure
        apply okShape_plain (keywordToken_plain hk)
        exact Nat.le_trans (strBytes_pos hs) (Nat.le_add_left _ _)
    | none =>
        simp only [hk]
        apply StepSpec.pure
        apply okShape_symbol
        · rw [ht, Nat.add_comm]
        · exact Nat.le_trans (strBytes_pos hs) (Nat.le_add_left _ _)

theorem symbolLoop_stepSpec (fp : LineCol) (ep : LineCol) :
    ∀ (inp : Input) (s : String), s.data ≠ [] →
    StepSpec ep inp (symbolLoop ep fp s VarType.Auto 0 inp) := by
  intro inp
  induction inp with
  | nil =>
      intro s hs
      simp only [symbolLoop]
      exact finishSymbol_stepSpec fp ep s _ _ hs (by simp) []
  | cons i rest ih =>
      intro s hs
      cases i with
      | err e =>
          simp only [symbolLoop]
          exact StepSpec.errHead
      | ok cs =>
          simp only [symbolLoop]
          split_ifs with h1 h2 h3 h4 h5 h6
          · exact StepSpec.consOk cs (ih (s.push cs.ch) (push_data_ne s _))
          · exact finishSymbol_stepSpec fp ep s _ _ hs (by simp) _
          · exact StepSpec.consOk cs (finishSymbol_stepSpec fp ep s _ _ hs (by simp) rest)
          · exact StepSpec.consOk cs (finishSymbol_stepSpec fp ep s _ _ hs (by simp) rest)
          · exact StepSpec.consOk cs (finishSymbol_stepSpec fp ep s _ _ hs (by simp) rest)
          · exact StepSpec.consOk cs (finishSymbol_stepSpec fp ep s _ _ hs (by simp) rest)
          · exact StepSpec.consOk cs (handle_bad_read_stepSpec _ _ _)

theorem consume_symbol_stepSpec (first : CharSpan) (ep : LineCol) (inp : Input) :
    StepSpec ep inp (consume_symbol first ep inp) :=
  symbolLoop_stepSpec first.pos ep inp (String.singleton first.ch) (by simp [data_singleton])

theorem textLoop_stepSpec (delim : CharSpan) {ep : LineCol} :
    ∀ (inp : Input) (s : String) (esc : Bool),
    StepSpec ep inp (textLoop delim s esc inp) := by
  intro inp
  induction inp with
  | nil =>
      intro s esc
      simp only [textLoop]
      exact handle_bad_read_stepSpec _ _ _
  | cons i rest ih =>
      intro s esc
      cases i with
      | err e =>
          simp only [textLoop]
          exact StepSpec.errHead
      | ok cs =>
          simp only [textLoop]
          split_ifs with h1 h2 h3
          · exact StepSpec.consOk cs (ih (s.push cs.ch) false)
          · exact StepSpec.consOk cs (ih s true)
          · apply StepSpec.consOk
            apply StepSpec.pure
            exact okShape_text
          · exact StepSpec.consOk cs (ih (s.push cs.ch) esc)

theorem consume_text_stepSpec (delim : CharSpan) {ep : LineCol} (inp : Input) :
    StepSpec ep inp (consume_text delim inp) :=
  textLoop_stepSpec delim inp "" false

theorem finishLabel_stepSpec (first : CharSpan) {ep : LineCol} (s : String)
    (inp : Input) (h : Resync inp) : StepSpec ep inp (finishLabel first s inp) := by
  unfold finishLabel
  split_ifs with h1
  · apply StepSpec.pure
    exact okShape_bad h (by omega)
  · apply StepSpec.pure
    exact okShape_label

theorem labelLoop_stepSpec (first : CharSpan) {ep : LineCol} :
    ∀ (inp : Input) (s : String), StepSpec ep inp (labelLoop first s inp) := by
  intro inp
  induction inp with
  | nil =>
      intro s
      simp only [labelLoop]
      exact finishLabel_stepSpec first s [] (Or.inl rfl)
  | cons i rest ih =>
      intro s
      cases i with
      | err e =>
          simp only [labelLoop]
          exact StepSpec.errHead
      | ok cs =>
          simp only [labelLoop]
          split_ifs with h1 h2
          · exact StepSpec.consOk cs (ih (s.push cs.ch))
          · exact finishLabel_stepSpec first s _ (Or.inr ⟨cs, rest, rfl, h2⟩)
          · exact StepSpec.consOk cs (handle_bad_read_stepSpec _ _ _)

theorem consume_label_stepSpec (first : CharSpan) {ep : LineCol} (inp : Input) :
    StepSpec ep inp (consume_label first inp) :=
  labelLoop_stepSpec first inp ""

theorem advance_none : ∀ (inp : Input) (rest : Input),
    advance_and_read_next inp = (Except.ok none, rest) →
    rest = [] ∧ ∃ taken, inp = taken ++ rest ∧ AllOk taken := by
  intro inp
  induction inp with
  | nil =>
      intro rest h
      simp only [advance_and_read_next, Prod.mk.injEq] at h
      obtain ⟨-, h2⟩ := h
      subst h2
      exact ⟨rfl, [], by simp, by simp [AllOk]⟩
  | cons i r ih =>
      intro rest h
      cases i with
      | ok cs =>
          by_cases hsp : isSpace cs.ch
          · simp only [advance_and_read_next, hsp, if_true] at h
            obtain ⟨h1, taken, hd, hall⟩ := ih rest h
            refine ⟨h1, RdItem.ok cs :: taken, by simp [hd], ?_⟩
            intro i hi
            rcases List.mem_cons.mp hi with hi | hi
            · exact ⟨cs, hi⟩
            · exact hall i hi
          · simp only [advance_and_read_next, hsp, if_false, Prod.mk.injEq] at h
            simp at h
      | err e =>
          simp only [advance_and_read_next, Prod.mk.injEq] at h
          simp at h

theorem advance_some : ∀ (inp : Input) (cs : CharSpan) (rest : Input),
    advance_and_read_next inp = (Except.ok (some cs), rest) →
    ∃ taken, inp = taken ++ RdItem.ok cs :: rest ∧ AllOk taken := by
  intro inp
  induction inp with
  | nil =>
      intro cs rest h
      simp only [advance_and_read_next, Prod.mk.injEq] at h
      simp at h
  | cons i r ih =>
      intro cs rest h
      cases i with
      | ok cs' =>
          by_cases hsp : isSpace cs'.ch
          · simp only [advance_and_read_next, hsp, if_true] at h
            obtain ⟨taken, hd, hall⟩ := ih cs rest h
            refine ⟨RdItem.ok cs' :: taken, by simp [hd], ?_⟩
            intro i hi
            rcases List.mem_cons.mp hi with hi | hi
            · exact ⟨cs', hi⟩
            · exact hall i hi
          · simp only [advance_and_read_next, hsp, if_false] at h
            rw [Prod.mk.injEq] at h
            obtain ⟨h1, h2⟩ := h
            obtain rfl := Option.some.inj (Except.ok.inj h1)
            subst h2
            exact ⟨[], by simp, by simp [AllOk]⟩
      | err e =>
          simp only [advance_and_read_next, Prod.mk.injEq] at h
          simp at h

theorem advance_err : ∀ (inp : Input) (e : IoError) (rest : Input),
    advance_and_read_next inp = (Except.error e, rest) →
    RdItem.err e ∈ inp ∧ ∃ taken, inp = taken ++ rest := by
  intro inp
  induction inp with
  | nil =>
      intro e rest h
      simp only [advance_and_read_next, Prod.mk.injEq] at h
      simp at h
  | cons i r ih =>
      intro e rest h
      cases i with
      | ok cs =>
          by_cases hsp : isSpace cs.ch
          · simp only [advance_and_read_next, hsp, if_true] at h
            obtain ⟨hm, taken, hd⟩ := ih e rest h
            exact ⟨List.mem_cons.mpr (Or.inr hm), RdItem.ok cs :: taken, by simp [hd]⟩
          · simp only [advance_and_read_next, hsp, if_false, Prod.mk.injEq] at h
            simp at h
      | err e' =>
          simp only [advance_and_read_next, Prod.mk.injEq, Except.error.injEq] at h
          obtain ⟨h1, h2⟩ := h
          subst h1
          subst h2
          exact ⟨List.mem_cons.mpr (Or.inl rfl), [RdItem.err e'], by simp⟩

theorem dispatch_stepSpec (ep : LineCol) (cs : CharSpan) (rest : Input) :
    StepSpec ep rest (dispatch ep cs rest) := by
  unfold dispatch
  by_cases h1 : (cs.ch = '\n' || cs.ch = ':') = true
  · rw [if_pos h1]
    apply StepSpec.pure
    exact okShape_plain rfl (by simp)
  rw [if_neg h1]
  by_cases h2 : cs.ch = squote
  · rw [if_pos h2]
    exact consume_rest_of_line_stepSpec ep rest
  rw [if_neg h2]
  by_cases h3 : cs.ch = '"'
  · rw [if_pos h3]
    exact consume_text_stepSpec cs rest
  rw [if_neg h3]
  by_cases h4 : cs.ch = ';'
  · rw [if_pos h4]
    apply StepSpec.pure
    exact okShape_plain rfl (by simp)
  rw [if_neg h4]
  by_cases h5 : cs.ch = ','
  · rw [if_pos h5]
    apply StepSpec.pure
    exact okShape_plain rfl (by simp)
  rw [if_neg h5]
  by_cases h6 : cs.ch = '('
  · rw [if_pos h6]
    apply StepSpec.pure
    exact okShape_plain rfl (by simp)
  rw [if_neg h6]
  by_cases h7 : cs.ch = ')'
  · rw [if_pos h7]
    apply StepSpec.pure
    exact okShape_plain rfl (by simp)
  rw [if_neg h7]
  by_cases h8 : cs.ch = '+'
  · rw [if_pos h8]
    apply StepSpec.pure
    exact okShape_plain rfl (by simp)
  rw [if_neg h8]
  by_cases h9 : cs.ch = '-'
  · rw [if_pos h9]
    apply StepSpec.pure
    exact okShape_plain rfl (by simp)
  rw [if_neg h9]
  by_cases h10 : cs.ch = '*'
  · rw [if_pos h10]
    apply StepSpec.pure
    exact okShape_plain rfl (by simp)
  rw [if_neg h10]
  by_cases h11 : cs.ch = '/'
  · rw [if_pos h11]
    apply StepSpec.pure
    exact okShape_plain rfl (by simp)
  rw [if_neg h11]
  by_cases h12 : cs.ch = '^'
  · rw [if_pos h12]
    apply StepSpec.pure
    exact okShape_plain rfl (by simp)
  rw [if_neg h12]
  by_cases h13 : cs.ch = '='
  · rw [if_pos h13]
    apply StepSpec.pure
    exact okShape_plain rfl (by simp)
  rw [if_neg h13]
  by_cases h14 : (cs.ch = '<' || cs.ch = '>') = true
  · rw [if_pos h14]
    exact consume_operator_stepSpec cs rest
  rw [if_neg h14]
  by_cases h15 : cs.ch = '@'
  · rw [if_pos h15]
    exact consume_label_stepSpec cs rest
  rw [if_neg h15]
  by_cases h16 : cs.ch.isDigit = true
  · rw [if_pos h16]
    exact consume_number_stepSpec cs rest
  rw [if_neg h16]
  by_cases h17 : isWord cs.ch = true
  · rw [if_pos h17]
    exact consume_symbol_stepSpec cs ep rest
  rw [if_neg h17]
  exact handle_bad_read_stepSpec _ _ _

theorem read_stepSpec (ep : LineCol) (inp : Input) : StepSpec ep inp (read ep inp) := by
  unfold read
  rcases hadv : advance_and_read_next inp with ⟨res, arest⟩
  cases res with
  | error e =>
      obtain ⟨hmem, taken, hdec⟩ := advance_err inp e arest hadv
      refine ⟨taken, hdec, ?_, ?_⟩
      · intro ts h
        cases h
      · intro e' h
        obtain rfl := Except.error.inj h
        exact hmem
  | ok ocs =>
      cases ocs with
      | none =>
          obtain ⟨hrest, taken, hdec, hall⟩ := advance_none inp arest hadv
          subst hrest
          refine ⟨taken, by simpa using hdec, ?_, ?_⟩
          · intro ts h
            obtain rfl := Except.ok.inj h
            exact ⟨hall, okShape_eof⟩
          · intro e h
            cases h
      | some cs =>
          obtain ⟨taken, hdec, hall⟩ := advance_some inp cs arest hadv
          have hall2 : AllOk (taken ++ [RdItem.ok cs]) := by
            intro i hi
            rcases List.mem_append.mp hi with hi | hi
            · exact hall i hi
            · exact ⟨cs, List.mem_singleton.mp hi⟩
          have hpre := StepSpec.prepend hall2 (dispatch_stepSpec ep cs arest)
          rw [hdec]
          simpa [List.append_assoc] using hpre

theorem char_ne {P : Char → Bool} {c d : Char} (h : P c = true) (hd : P d = false) :
    ¬ c = d := by
  intro e
  rw [← e] at hd
  rw [h] at hd
  cases hd

theorem sep_not_digit {c : Char} (h : isSeparator c = true) : c.isDigit = false := by
  simp only [isSeparator, isSpace, Bool.or_eq_true, decide_eq_true_eq] at h
  casesm* _ ∨ _ <;> subst_vars <;> decide

theorem advance_cons_nonspace {cs : CharSpan} {rest : Input} (h : isSpace cs.ch = false) :
    advance_and_read_next (RdItem.ok cs :: rest) = (Except.ok (some cs), rest) := by
  simp [advance_and_read_next, h]

theorem read_cons {ep : LineCol} {cs : CharSpan} {rest : Input} (h : isSpace cs.ch = false) :
    read ep (RdItem.ok cs :: rest) = dispatch ep cs rest := by
  unfold read
  rw [advance_cons_nonspace h]

theorem dispatch_digit (ep : LineCol) (cs : CharSpan) (rest : Input)
    (h : cs.ch.isDigit = true) : dispatch ep cs rest = consume_number cs rest := by
  have nd : ∀ d : Char, d.isDigit = false → ¬ cs.ch = d := fun d hd => char_ne h hd
  unfold dispatch
  rw [if_neg (by
    simp only [Bool.or_eq_true, decide_eq_true_eq]
    push_neg
    exact ⟨nd _ (by decide), nd _ (by decide)⟩)]
  rw [if_neg (nd _ (by decide))]
  rw [if_neg (nd _ (by decide))]
  rw [if_neg (nd _ (by decide))]
  rw [if_neg (nd _ (by decide))]
  rw [if_neg (nd _ (by decide))]
  rw [if_neg (nd _ (by decide))]
  rw [if_neg (nd _ (by decide))]
  rw [if_neg (nd _ (by decide))]
  rw [if_neg (nd _ (by decide))]
  rw [if_neg (nd _ (by decide))]
  rw [if_neg (nd _ (by decide))]
  rw [if_neg (nd _ (by decide))]
  rw [if_neg (by
    simp only [Bool.or_eq_true, decide_eq_true_eq]
    push_neg
    exact ⟨nd _ (by decide), nd _ (by decide)⟩)]
  rw [if_neg (nd _ (by decide))]
  rw [if_pos h]

theorem digit_not_space {c : Char} (h : c.isDigit = true) : isSpace c = false := by
  have nd : ∀ d : Char, d.isDigit = false → ¬ c = d := fun d hd => char_ne h hd
  simp only [isSpace, Bool.or_eq_false_iff, decide_eq_false_iff_not]
  exact ⟨⟨nd _ (by decide), nd _ (by decide)⟩, nd _ (by decide)⟩

theorem dispatch_word (ep : LineCol) (cs : CharSpan) (rest : Input)
    (h : isWord cs.ch = true) (hd : cs.ch.isDigit = false) :
    dispatch ep cs rest = consume_symbol cs ep rest := by
  have nw : ∀ d : Char, isWord d = false → ¬ cs.ch = d := fun d hd2 => char_ne h hd2
  unfold dispatch
  rw [if_neg (by
    simp only [Bool.or_eq_true, decide_eq_true_eq]
    push_neg
    exact ⟨nw _ (by decide), nw _ (by decide)⟩)]
  rw [if_neg (nw _ (by decide))]
  rw [if_neg (nw _ (by decide))]
  rw [if_neg (nw _ (by decide))]
  rw [if_neg (nw _ (by decide))]
  rw [if_neg (nw _ (by decide))]
  rw [if_neg (nw _ (by decide))]
  rw [if_neg (nw _ (by decide))]
  rw [if_neg (nw _ (by decide))]
  rw [if_neg (nw _ (by decide))]
  rw [if_neg (nw _ (by decide))]
  rw [if_neg (nw _ (by decide))]
  rw [if_neg (nw _ (by decide))]
  rw [if_neg (by
    simp only [Bool.or_eq_true, decide_eq_true_eq]
    push_neg
    exact ⟨nw _ (by decide), nw _ (by decide)⟩)]
  rw [if_neg (nw _ (by decide))]
  rw [if_neg (by simp [hd])]
  rw [if_pos h]

theorem word_not_space {c : Char} (h : isWord c = true) : isSpace c = false := by
  have nw : ∀ d : Char, isWord d = false → ¬ c = d := fun d hd => char_ne h hd
  simp only [isSpace, Bool.or_eq_false_iff, decide_eq_false_iff_not]
  exact ⟨⟨nw _ (by decide), nw _ (by decide)⟩, nw _ (by decide)⟩

theorem data_append (a b : String) : (a ++ b).data = a.data ++ b.data := by
  cases a
  cases b
  rfl

theorem data_mk (l : List Char) : (String.mk l).data = l := rfl

theorem append_mk_nil (s : String) : s ++ String.mk [] = s := by
  apply strExt
  simp [data_append, data_mk]

theorem push_append_mk (s : String) (c : Char) (l : List Char) :
    s.push c ++ String.mk l = s ++ String.mk (c :: l) := by
  apply strExt
  simp [data_append, data_mk, data_push]

theorem handle_bad_read_resync {msg : String} {fp : LineCol} {rest : Input}
    (hr : Resync rest) :
    handle_bad_read msg fp rest = (Except.ok ⟨Token.Bad msg, fp, 1⟩, rest) := by
  rcases hr with hr | ⟨cs, r, hr, hsep⟩
  · subst hr
    rfl
  · subst hr
    unfold handle_bad_read handleBadLoop
    rw [if_pos hsep]

theorem numberLoop_digits (fp : LineCol) :
    ∀ (ds : List CharSpan) (s : String) (rest : Input),
    (∀ cs ∈ ds, cs.ch.isDigit = true) →
    numberLoop fp s false (ds.map RdItem.ok ++ rest)
      = numberLoop fp (s ++ String.mk (ds.map CharSpan.ch)) false rest := by
  intro ds
  induction ds with
  | nil =>
      intro s rest h
      simp [append_mk_nil]
  | cons c ct ih =>
      intro s rest h
      have hd : c.ch.isDigit = true := h c (by simp)
      have hstep : numberLoop fp s false (RdItem.ok c :: (ct.map RdItem.ok ++ rest))
          = numberLoop fp (s.push c.ch) false (ct.map RdItem.ok ++ rest) := by
        conv_lhs => unfold numberLoop
        rw [if_neg (char_ne hd (by decide))]
        rw [if_pos hd]
      simp only [List.map, List.cons_append]
      rw [hstep, ih (s.push c.ch) rest (fun x hx => h x (by simp [hx]))]
      rw [push_append_mk]

theorem numberLoop_resync (fp : LineCol) {s : String} {rest : Input} (hr : Resync rest) :
    numberLoop fp s false rest = finishNumber fp s false rest := by
  rcases hr with hr | ⟨cs, r, hr, hsep⟩
  · subst hr
    rfl
  · subst hr
    unfold numberLoop
    rw [if_neg (char_ne hsep (by decide))]
    rw [if_neg (by simp [sep_not_digit hsep])]
    rw [if_pos hsep]

theorem finishNumber_overflow (fp : LineCol) {s : String} {rest : Input}
    (hv : 2147483647 < digitsVal s) (hr : Resync rest) :
    finishNumber fp s false rest =
      (Except.ok ⟨Token.Bad ("Bad integer " ++ s ++ ": number too large to fit in target type"),
        fp, 1⟩, rest) := by
  have hp : parseI32 s = Except.error "number too large to fit in target type" := by
    unfold parseI32
    rw [if_neg (by omega)]
  have hmsg : "Bad integer " ++ s ++ ": " ++ "number too large to fit in target type"
      = "Bad integer " ++ s ++ ": number too large to fit in target type" := by
    apply strExt
    simp only [data_append, List.append_assoc]
    rfl
  unfold finishNumber
  rw [if_neg (by decide)]
  rw [hp]
  show handle_bad_read ("Bad integer " ++ s ++ ": " ++ "number too large to fit in target type")
    fp rest = _
  rw [hmsg]
  exact handle_bad_read_resync hr

theorem symbolLoop_words (ep fp : LineCol) :
    ∀ (ws : List CharSpan) (s : String) (rest : Input),
    (∀ cs ∈ ws, isWord cs.ch = true) →
    symbolLoop ep fp s VarType.Auto 0 (ws.map RdItem.ok ++ rest)
      = symbolLoop ep fp (s ++ String.mk (ws.map CharSpan.ch)) VarType.Auto 0 rest := by
  intro ws
  induction ws with
  | nil =>
      intro s rest h
      simp [append_mk_nil]
  | cons c ct ih =>
      intro s rest h
      have hw : isWord c.ch = true := h c (by simp)
      have hstep : symbolLoop ep fp s VarType.Auto 0 (RdItem.ok c :: (ct.map RdItem.ok ++ rest))
          = symbolLoop ep fp (s.push c.ch) VarType.Auto 0 (ct.map RdItem.ok ++ rest) := by
        conv_lhs => unfold symbolLoop
        rw [if_pos hw]
      simp only [List.map, List.cons_append]
      rw [hstep, ih (s.push c.ch) rest (fun x hx => h x (by simp [hx]))]
      rw [push_append_mk]

theorem word_not_sep {c : Char} (h : isWord c = true) : isSeparator c = false := by
  have nw : ∀ d : Char, isWord d = false → ¬ c = d := fun d hd => char_ne h hd
  have hsp := word_not_space h
  simp only [isSeparator, Bool.or_eq_false_iff, decide_eq_false_iff_not]
  refine ⟨⟨⟨⟨⟨⟨⟨⟨⟨⟨⟨⟨⟨⟨⟨nw _ (by decide), nw _ (by decide)⟩, nw _ (by decide)⟩,
    nw _ (by decide)⟩, nw _ (by decide)⟩, nw _ (by decide)⟩, nw _ (by decide)⟩,
    nw _ (by decide)⟩, nw _ (by decide)⟩, nw _ (by decide)⟩, nw _ (by decide)⟩,
    nw _ (by decide)⟩, nw _ (by decide)⟩, nw _ (by decide)⟩, nw _ (by decide)⟩, hsp⟩

theorem symbolLoop_sigil (ep fp : LineCol) (s : String) (sg : CharSpan) (vt : VarType)
    (rest : Input) (h : sigilType sg.ch = some vt) :
    symbolLoop ep fp s VarType.Auto 0 (RdItem.ok sg :: rest)
      = finishSymbol ep fp s vt 1 rest := by
  unfold sigilType at h
  split_ifs at h with h1 h2 h3 h4 <;>
    (obtain rfl := Option.some.inj h
     unfold symbolLoop
     first
       | (rw [h1]
          rw [if_neg (by decide), if_neg (by decide), if_pos rfl])
       | (rw [h2]
          rw [if_neg (by decide), if_neg (by decide), if_neg (by decide), if_pos rfl])
       | (rw [h3]
          rw [if_neg (by decide), if_neg (by decide), if_neg (by decide),
            if_neg (by decide), if_pos rfl])
       | (rw [h4]
          rw [if_neg (by decide), if_neg (by decide), if_neg (by decide),
            if_neg (by decide), if_neg (by decide), if_pos rfl]))

theorem finishSymbol_symbol {ep fp : LineCol} {s : String} {vt : VarType} {tlen : Nat}
    {rest : Input} (h1 : ¬ toUpperStr s = "REM")
    (h2 : keywordToken (toUpperStr s) = none) :
    finishSymbol ep fp s vt tlen rest
      = (Except.ok ⟨Token.Symbol ⟨s, vt⟩, fp, tlen + strBytes s⟩, rest) := by
  unfold finishSymbol
  rw [if_neg h1, h2]

theorem dispatch_quote (ep p : LineCol) (rest : Input) :
    dispatch ep ⟨'"', p⟩ rest = consume_text ⟨'"', p⟩ rest := by
  unfold dispatch
  rw [if_neg (show ¬ (('"' = '\n' || '"' = ':') = true) by decide)]
  rw [if_neg (show ¬ ('"' = squote) by decide)]
  rw [if_pos rfl]

theorem textLoop_escape (delim : CharSpan) (s : String) (p q : LineCol) (c : Char)
    (rest : Input) :
    textLoop delim s false (RdItem.ok ⟨bslash, p⟩ :: RdItem.ok ⟨c, q⟩ :: rest)
      = textLoop delim (s.push c) false rest := by
  conv_lhs => unfold textLoop
  rw [if_neg (by decide), if_pos rfl]
  conv_lhs => unfold textLoop
  rw [if_pos rfl]

theorem textLoop_newline (p q : LineCol) (s : String) (rest : Input) :
    textLoop ⟨'"', p⟩ s false (RdItem.ok ⟨'\n', q⟩ :: rest)
      = textLoop ⟨'"', p⟩ (s.push '\n') false rest := by
  conv_lhs => unfold textLoop
  rw [if_neg (show ¬ ((false : Bool) = true) by decide)]
  rw [if_neg (show ¬ ('\n' = bslash) by decide)]
  rw [if_neg (show ¬ ('\n' = '"') by decide)]

theorem textLoop_eof (delim : CharSpan) (s : String) (esc : Bool) :
    textLoop delim s esc []
      = (Except.ok ⟨Token.Bad ("Incomplete string due to EOF: " ++ s), delim.pos, 1⟩, []) := rfl

theorem textLoop_ok_shape :
    ∀ (inp : Input) (delim : CharSpan) (s : String) (esc : Bool) (ts : TokenSpan)
      (rest : Input),
    textLoop delim s esc inp = (Except.ok ts, rest) →
    (∃ c, ts = ⟨Token.Text c, delim.pos, strBytes c + 2⟩) ∨
    (∃ pre, ts = ⟨Token.Bad ("Incomplete string due to EOF: " ++ pre), delim.pos, 1⟩ ∧
      rest = []) := by
  intro inp
  induction inp with
  | nil =>
      intro delim s esc ts rest h
      rw [textLoop_eof, Prod.mk.injEq] at h
      obtain ⟨h1, h2⟩ := h
      obtain rfl := Except.ok.inj h1
      exact Or.inr ⟨s, rfl, h2.symm⟩
  | cons i r ih =>
      intro delim s esc ts rest h
      cases i with
      | err e =>
          unfold textLoop at h
          rw [Prod.mk.injEq] at h
          exact Except.noConfusion h.1
      | ok cs =>
          unfold textLoop at h
          split_ifs at h with h1 h2 h3
          · exact ih delim (s.push cs.ch) false ts rest h
          · exact ih delim s true ts rest h
          · rw [Prod.mk.injEq] at h
            obtain ⟨hl, hr⟩ := h
            obtain rfl := Except.ok.inj hl
            exact Or.inl ⟨s, rfl⟩
          · exact ih delim (s.push cs.ch) esc ts rest h

/-- C1, counterexample: the claim says a sigiled spelling always lexes as a
`Symbol` even when the name matches a keyword, but lexing `TRUE?` produces the
keyword token `Boolean true` (with length 5), not
`Symbol (VarRef "TRUE" Boolean)`: `consume_symbol` applies keyword resolution
to the uppercased buffer whether or not a sigil was consumed. -/
theorem c1_counterexample :
    readStr "TRUE?" = (Except.ok ⟨Token.Boolean true, ⟨1, 1⟩, 5⟩, []) ∧
    ¬ readStr "TRUE?"
        = (Except.ok ⟨Token.Symbol ⟨"TRUE", VarType.Boolean⟩, ⟨1, 1⟩, 5⟩, []) := by
  constructor
  · rfl
  · decide

/-- C1, amended: keyword resolution is applied to the buffer whether or not a
sigil is present; a word `n` followed by a sigil lexes as
`Symbol (VarRef n (T sigil))` exactly when the uppercased `n` matches neither
a keyword nor `REM` (otherwise the keyword token is produced, `TRUE?` giving
`Boolean true`). -/
theorem c1_keyword_overrides_sigil (first sg : CharSpan) (ws : List CharSpan)
    (vt : VarType) (ep : LineCol) (rest : Input)
    (hw1 : isWord first.ch = true) (hd1 : first.ch.isDigit = false)
    (hws : ∀ cs ∈ ws, isWord cs.ch = true)
    (hsg : sigilType sg.ch = some vt)
    (hkw : keywordToken (toUpperStr (String.mk (first.ch :: ws.map CharSpan.ch))) = none)
    (hrem : ¬ toUpperStr (String.mk (first.ch :: ws.map CharSpan.ch)) = "REM") :
    read ep (RdItem.ok first :: (ws.map RdItem.ok ++ RdItem.ok sg :: rest))
      = (Except.ok ⟨Token.Symbol ⟨String.mk (first.ch :: ws.map CharSpan.ch), vt⟩,
          first.pos, 1 + strBytes (String.mk (first.ch :: ws.map CharSpan.ch))⟩, rest) := by
  rw [read_cons (word_not_space hw1)]
  rw [dispatch_word ep first _ hw1 hd1]
  unfold consume_symbol
  rw [symbolLoop_words ep first.pos ws (String.singleton first.ch)
    (RdItem.ok sg :: rest) hws]
  have hs : String.singleton first.ch ++ String.mk (ws.map CharSpan.ch)
      = String.mk (first.ch :: ws.map CharSpan.ch) := by
    apply strExt
    simp [data_append, data_singleton, data_mk]
  rw [hs]
  rw [symbolLoop_sigil ep first.pos _ sg vt rest hsg]
  exact finishSymbol_symbol hrem hkw

/-- C1, witness: `foo%` lexes as `Symbol (VarRef "foo" Integer)` of length 4. -/
theorem c1_witness :
    read ⟨1, 5⟩ [RdItem.ok ⟨'f', ⟨1, 1⟩⟩, RdItem.ok ⟨'o', ⟨1, 2⟩⟩, RdItem.ok ⟨'o', ⟨1, 3⟩⟩,
        RdItem.ok ⟨'%', ⟨1, 4⟩⟩]
      = (Except.ok ⟨Token.Symbol ⟨"foo", VarType.Integer⟩, ⟨1, 1⟩, 4⟩, []) := by
  have h := c1_keyword_overrides_sigil ⟨'f', ⟨1, 1⟩⟩ ⟨'%', ⟨1, 4⟩⟩
    [⟨'o', ⟨1, 2⟩⟩, ⟨'o', ⟨1, 3⟩⟩] VarType.Integer ⟨1, 5⟩ []
    (by decide) (by decide) (by decide) (by decide) (by decide) (by decide)
  exact h

/-- C2, counterexample: the claim says a token's length equals the number of
characters consumed from the source, escape backslashes included; lexing the
four-character source consisting of a quote, a backslash, the letter a and a
quote consumes all four characters (the remaining stream is empty) but yields
`Text "a"` with length 3, not 4. -/
theorem c2_counterexample :
    readStr "\"\\a\"" = (Except.ok ⟨Token.Text "a", ⟨1, 1⟩, 3⟩, []) ∧
    (mkInput "\"\\a\"").length = 4 ∧
    ¬ readStr "\"\\a\"" = (Except.ok ⟨Token.Text "a", ⟨1, 1⟩, 4⟩, []) := by
  refine ⟨rfl, rfl, ?_⟩
  decide

/-- C2, amended: the `length` field is the UTF-8 byte count of the token's own
text plus its delimiters — `Text c` has length `bytes c + 2` (escape
backslashes are consumed but not counted), `Label l` has `bytes l + 1`,
`Symbol n` has `bytes n` plus one if a sigil was consumed, and `Eof` has
length 0; for ASCII-only content without escapes the byte count coincides
with the character count consumed. -/
theorem c2_length_bytes (ep : LineCol) (inp : Input) (ts : TokenSpan) (rest : Input)
    (h : read ep inp = (Except.ok ts, rest)) :
    (ts.token = Token.Eof → ts.length = 0) ∧
    (∀ c, ts.token = Token.Text c → ts.length = strBytes c + 2) ∧
    (∀ l, ts.token = Token.Label l → ts.length = strBytes l + 1) ∧
    (∀ n vt, ts.token = Token.Symbol ⟨n, vt⟩ →
      ts.length = strBytes n + (if vt = VarType.Auto then 0 else 1)) := by
  have hspec := read_stepSpec ep inp
  rw [h] at hspec
  obtain ⟨taken, hdec, hok, herr⟩ := hspec
  obtain ⟨hall, hshape⟩ := hok ts rfl
  exact ⟨fun he => (hshape.eof_shape he).1, hshape.text_len, hshape.label_len,
    hshape.symbol_len⟩

/-- C2, witness: the two-character string literal `"ab"` yields length 4. -/
theorem c2_witness : (4 : Nat) = strBytes "ab" + 2 := by
  have h := c2_length_bytes (mkEndPos "\"ab\"") (mkInput "\"ab\"")
    ⟨Token.Text "ab", ⟨1, 1⟩, 4⟩ [] (by decide)
  exact h.2.1 "ab" rfl

/-- C3: `handle_bad_read` produces `Bad msg` positioned at the given first
offending position, with length 1 plus the count of characters consumed during
recovery; the consumed characters are exactly the non-separator characters up
to (and excluding) the next separator or EOF; and after any `Bad` token
returned by `read`, the stream is positioned at a separator or exhausted, so
subsequent reads resume there. -/
theorem c3_bad_recovery :
    (∀ (msg : String) (fp : LineCol) (inp : Input) (ts : TokenSpan) (rest : Input),
      handle_bad_read msg fp inp = (Except.ok ts, rest) →
      ∃ taken, inp = taken ++ rest ∧ ts = ⟨Token.Bad msg, fp, 1 + taken.length⟩ ∧
        (∀ i ∈ taken, ∃ cs, i = RdItem.ok cs ∧ isSeparator cs.ch = false) ∧
        Resync rest) ∧
    (∀ (ep : LineCol) (inp : Input) (ts : TokenSpan) (rest : Input) (m : String),
      read ep inp = (Except.ok ts, rest) → ts.token = Token.Bad m → Resync rest) := by
  constructor
  · intro msg fp inp ts rest h
    obtain ⟨taken, hdec, hts, hall, hres⟩ := handleBadLoop_ok msg fp inp 1 ts rest h
    exact ⟨taken, hdec, hts, hall, hres⟩
  · intro ep inp ts rest m h htok
    have hspec := read_stepSpec ep inp
    rw [h] at hspec
    obtain ⟨taken, hdec, hok, herr⟩ := hspec
    obtain ⟨hall, hshape⟩ := hok ts rfl
    exact hshape.bad_resync m htok

/-- C3, witness: recovering after an offending character consumes `x` and
stops at the separator `+`. -/
theorem c3_witness : Resync [RdItem.ok ⟨'+', ⟨1, 3⟩⟩] := by
  have h := c3_bad_recovery.1 "m" ⟨1, 1⟩
    [RdItem.ok ⟨'x', ⟨1, 2⟩⟩, RdItem.ok ⟨'+', ⟨1, 3⟩⟩]
    ⟨Token.Bad "m", ⟨1, 1⟩, 2⟩ [RdItem.ok ⟨'+', ⟨1, 3⟩⟩] (by decide)
  obtain ⟨taken, -, -, -, hres⟩ := h
  exact hres

/-- C4: a successful `read` never consumes an I/O error item from the reader
(so an error is never wrapped into a `Bad` token), and when `read` fails the
reported error is one of the stream's error items, surfaced as `Err`. -/
theorem c4_fatal_errors :
    (∀ (ep : LineCol) (inp : Input) (ts : TokenSpan) (rest : Input),
      read ep inp = (Except.ok ts, rest) → ∃ taken, inp = taken ++ rest ∧ AllOk taken) ∧
    (∀ (ep : LineCol) (inp : Input) (e : IoError) (rest : Input),
      read ep inp = (Except.error e, rest) → RdItem.err e ∈ inp) := by
  constructor
  · intro ep inp ts rest h
    have hspec := read_stepSpec ep inp
    rw [h] at hspec
    obtain ⟨taken, hdec, hok, herr⟩ := hspec
    obtain ⟨hall, -⟩ := hok ts rfl
    exact ⟨taken, hdec, hall⟩
  · intro ep inp e rest h
    have hspec := read_stepSpec ep inp
    rw [h] at hspec
    obtain ⟨taken, hdec, hok, herr⟩ := hspec
    exact herr e rfl

/-- C4, witness: a reader error at the front of the stream is surfaced. -/
theorem c4_witness : RdItem.err "boom" ∈ ([RdItem.err "boom"] : Input) :=
  c4_fatal_errors.2 ⟨1, 1⟩ [RdItem.err "boom"] "boom" [] (by decide)

/-- C5: a run of ASCII digits whose value exceeds the 32-bit signed range,
delimited by a separator or EOF, lexes as
`Bad "Bad integer {digits}: number too large to fit in target type"` with
length 1 at the first digit's position, leaving the stream at the delimiter;
and the full token stream of `9999999999+5` is that `Bad` token at 1:1,
`Plus` at 1:11, `Integer 5` at 1:12 and `Eof` at 1:13. -/
theorem c5_integer_overflow :
    (∀ (first : CharSpan) (ds : List CharSpan) (ep : LineCol) (rest : Input),
      first.ch.isDigit = true →
      (∀ cs ∈ ds, cs.ch.isDigit = true) →
      2147483647 < digitsVal (String.mk (first.ch :: ds.map CharSpan.ch)) →
      Resync rest →
      read ep (RdItem.ok first :: (ds.map RdItem.ok ++ rest))
        = (Except.ok ⟨Token.Bad ("Bad integer " ++ String.mk (first.ch :: ds.map CharSpan.ch)
            ++ ": number too large to fit in target type"), first.pos, 1⟩, rest)) ∧
    lexAll "9999999999+5" =
      [Except.ok ⟨Token.Bad "Bad integer 9999999999: number too large to fit in target type",
        ⟨1, 1⟩, 1⟩,
       Except.ok ⟨Token.Plus, ⟨1, 11⟩, 1⟩,
       Except.ok ⟨Token.Integer 5, ⟨1, 12⟩, 1⟩,
       Except.ok ⟨Token.Eof, ⟨1, 13⟩, 0⟩] := by
  constructor
  · intro first ds ep rest h1 h2 h3 h4
    rw [read_cons (digit_not_space h1)]
    rw [dispatch_digit ep first _ h1]
    unfold consume_number
    rw [numberLoop_digits first.pos ds (String.singleton first.ch) rest h2]
    have hs : String.singleton first.ch ++ String.mk (ds.map CharSpan.ch)
        = String.mk (first.ch :: ds.map CharSpan.ch) := by
      apply strExt
      simp [data_append, data_singleton, data_mk]
    rw [hs]
    rw [numberLoop_resync first.pos h4]
    exact finishNumber_overflow first.pos h3 h4
  · rfl

/-- C5, witness: the digit run `9999999999` followed by EOF. -/
theorem c5_witness :
    read ⟨1, 11⟩ [RdItem.ok ⟨'9', ⟨1, 1⟩⟩, RdItem.ok ⟨'9', ⟨1, 2⟩⟩, RdItem.ok ⟨'9', ⟨1, 3⟩⟩,
        RdItem.ok ⟨'9', ⟨1, 4⟩⟩, RdItem.ok ⟨'9', ⟨1, 5⟩⟩, RdItem.ok ⟨'9', ⟨1, 6⟩⟩,
        RdItem.ok ⟨'9', ⟨1, 7⟩⟩, RdItem.ok ⟨'9', ⟨1, 8⟩⟩, RdItem.ok ⟨'9', ⟨1, 9⟩⟩,
        RdItem.ok ⟨'9', ⟨1, 10⟩⟩]
      = (Except.ok ⟨Token.Bad "Bad integer 9999999999: number too large to fit in target type",
          ⟨1, 1⟩, 1⟩, []) := by
  have h := c5_integer_overflow.1 ⟨'9', ⟨1, 1⟩⟩
    [⟨'9', ⟨1, 2⟩⟩, ⟨'9', ⟨1, 3⟩⟩, ⟨'9', ⟨1, 4⟩⟩, ⟨'9', ⟨1, 5⟩⟩, ⟨'9', ⟨1, 6⟩⟩,
     ⟨'9', ⟨1, 7⟩⟩, ⟨'9', ⟨1, 8⟩⟩, ⟨'9', ⟨1, 9⟩⟩, ⟨'9', ⟨1, 10⟩⟩] ⟨1, 11⟩ []
    (by decide) (by decide) (by decide) (Or.inl rfl)
  exact h

/-- C6, counterexample: the claim says a successful string literal has length
`character_count(content) + 2`, but lexing the literal containing the single
non-ASCII character 라 yields `Text "라"` with length 5 (its UTF-8 byte count
3 plus the two quotes), not `String.length "라" + 2 = 3`. -/
theorem c6_counterexample :
    readStr "\"라\"" = (Except.ok ⟨Token.Text "라", ⟨1, 1⟩, 5⟩, []) ∧
    String.length "라" = 1 ∧
    ¬ readStr "\"라\""
        = (Except.ok ⟨Token.Text "라", ⟨1, 1⟩, String.length "라" + 2⟩, []) := by
  refine ⟨rfl, rfl, ?_⟩
  decide

/-- C6, amended: a double quote dispatches to the string scanner; inside it a
backslash copies the immediately following character verbatim, a newline does
not terminate the literal, reaching EOF (including right after a backslash)
yields `Bad "Incomplete string due to EOF: {content so far}"`, and every
successful outcome is either `Text content` at the opening quote's position
with length `byte_count(content) + 2` (not character count) or that `Bad`
token at the opening quote's position with length 1. -/
theorem c6_string_literals :
    (∀ (ep p : LineCol) (inp : Input),
      read ep (RdItem.ok ⟨'"', p⟩ :: inp) = consume_text ⟨'"', p⟩ inp) ∧
    (∀ (delim : CharSpan) (s : String) (p q : LineCol) (c : Char) (rest : Input),
      textLoop delim s false (RdItem.ok ⟨bslash, p⟩ :: RdItem.ok ⟨c, q⟩ :: rest)
        = textLoop delim (s.push c) false rest) ∧
    (∀ (p q : LineCol) (s : String) (rest : Input),
      textLoop ⟨'"', p⟩ s false (RdItem.ok ⟨'\n', q⟩ :: rest)
        = textLoop ⟨'"', p⟩ (s.push '\n') false rest) ∧
    (∀ (delim : CharSpan) (s : String) (esc : Bool),
      textLoop delim s esc []
        = (Except.ok ⟨Token.Bad ("Incomplete string due to EOF: " ++ s), delim.pos, 1⟩, [])) ∧
    (∀ (delim : CharSpan) (inp : Input) (ts : TokenSpan) (rest : Input),
      consume_text delim inp = (Except.ok ts, rest) →
      (∃ c, ts = ⟨Token.Text c, delim.pos, strBytes c + 2⟩) ∨
      (∃ pre, ts = ⟨Token.Bad ("Incomplete string due to EOF: " ++ pre), delim.pos, 1⟩ ∧
        rest = [])) := by
  refine ⟨?_, textLoop_escape, textLoop_newline, textLoop_eof, ?_⟩
  · intro ep p inp
    rw [read_cons (show isSpace '"' = false by decide), dispatch_quote]
  · intro delim inp ts rest h
    exact textLoop_ok_shape inp delim "" false ts rest h

/-- C6, witness: the literal `"ab"` produces `Text "ab"` of length 4. -/
theorem c6_witness :
    (∃ c, (⟨Token.Text "ab", ⟨1, 1⟩, 4⟩ : TokenSpan)
        = ⟨Token.Text c, ⟨1, 1⟩, strBytes c + 2⟩) ∨
    (∃ pre, (⟨Token.Text "ab", ⟨1, 1⟩, 4⟩ : TokenSpan)
        = ⟨Token.Bad ("Incomplete string due to EOF: " ++ pre), ⟨1, 1⟩, 1⟩ ∧
      ([RdItem.ok ⟨'x', ⟨1, 5⟩⟩] : Input) = []) :=
  c6_string_literals.2.2.2.2 ⟨'"', ⟨1, 1⟩⟩
    [RdItem.ok ⟨'a', ⟨1, 2⟩⟩, RdItem.ok ⟨'b', ⟨1, 3⟩⟩, RdItem.ok ⟨'"', ⟨1, 4⟩⟩,
     RdItem.ok ⟨'x', ⟨1, 5⟩⟩]
    ⟨Token.Text "ab", ⟨1, 1⟩, 4⟩ [RdItem.ok ⟨'x', ⟨1, 5⟩⟩] (by decide)

/-- C7: reading at exhaustion returns `Eof` stamped at the reader's
next-position snapshot with length 0 and leaves the stream exhausted, so
repeated reads return the same `Eof` again; and `read` returns an `Eof`
token only at exhaustion (with that position and length), so the token
sequence contains exactly one `Eof`. -/
theorem c7_eof_idempotent :
    (∀ ep : LineCol, read ep [] = (Except.ok ⟨Token.Eof, ep, 0⟩, [])) ∧
    (∀ (ep : LineCol) (inp : Input) (ts : TokenSpan) (rest : Input),
      read ep inp = (Except.ok ts, rest) → ts.token = Token.Eof →
      ts.pos = ep ∧ ts.length = 0 ∧ rest = []) := by
  constructor
  · intro ep
    rfl
  · intro ep inp ts rest h htok
    have hspec := read_stepSpec ep inp
    rw [h] at hspec
    obtain ⟨taken, hdec, hok, herr⟩ := hspec
    obtain ⟨hall, hshape⟩ := hok ts rfl
    obtain ⟨h0, hp, hr⟩ := hshape.eof_shape htok
    exact ⟨hp, h0, hr⟩

/-- C7, witness: `Eof` at exhaustion with the snapshot position. -/
theorem c7_witness :
    (⟨1, 4⟩ : LineCol) = ⟨1, 4⟩ ∧ (0 : Nat) = 0 ∧ ([] : Input) = [] :=
  c7_eof_idempotent.2 ⟨1, 4⟩ [] ⟨Token.Eof, ⟨1, 4⟩, 0⟩ [] rfl rfl

/-- C8: a successful `peek` buffers the token: peeking again returns the same
token and the very same state (consuming nothing), reading after the peek
returns the buffered token and clears the buffer, and `peek` followed by
`read` is observationally identical to `read` alone. -/
theorem c8_peek_read (p p2 : PeekableLexer) (t : TokenSpan)
    (h : PeekableLexer.peek p = (Except.ok t, p2)) :
    PeekableLexer.peek p2 = (Except.ok t, p2) ∧
    PeekableLexer.read p2 = (Except.ok t, { p2 with peeked := none }) ∧
    PeekableLexer.read p = PeekableLexer.read p2 := by
  cases hp : p.peeked with
  | some t0 =>
      unfold PeekableLexer.peek at h
      rw [hp] at h
      rw [Prod.mk.injEq] at h
      obtain ⟨h1, h2⟩ := h
      obtain rfl := Except.ok.inj h1
      subst h2
      refine ⟨?_, ?_, rfl⟩
      · unfold PeekableLexer.peek
        rw [hp]
      · unfold PeekableLexer.read
        rw [hp]
  | none =>
      unfold PeekableLexer.peek at h
      rw [hp] at h
      rcases hr : EndBasic.read p.endPos p.inp with ⟨res, rest⟩
      rw [hr] at h
      cases res with
      | ok t' =>
          rw [Prod.mk.injEq] at h
          obtain ⟨h1, h2⟩ := h
          obtain rfl := Except.ok.inj h1
          subst h2
          refine ⟨?_, ?_, ?_⟩
          · unfold PeekableLexer.peek
            rfl
          · unfold PeekableLexer.read
            rfl
          · unfold PeekableLexer.read
            rw [hp, hr]
      | error e =>
          rw [Prod.mk.injEq] at h
          exact Except.noConfusion h.1

/-- C8, witness: peeking the single token of the source `a` and reading it. -/
theorem c8_witness :
    PeekableLexer.peek ⟨⟨1, 2⟩, [], some ⟨Token.Symbol ⟨"a", VarType.Auto⟩, ⟨1, 1⟩, 1⟩⟩
      = (Except.ok ⟨Token.Symbol ⟨"a", VarType.Auto⟩, ⟨1, 1⟩, 1⟩,
         ⟨⟨1, 2⟩, [], some ⟨Token.Symbol ⟨"a", VarType.Auto⟩, ⟨1, 1⟩, 1⟩⟩) :=
  (c8_peek_read ⟨⟨1, 2⟩, [RdItem.ok ⟨'a', ⟨1, 1⟩⟩], none⟩
    ⟨⟨1, 2⟩, [], some ⟨Token.Symbol ⟨"a", VarType.Auto⟩, ⟨1, 1⟩, 1⟩⟩
    ⟨Token.Symbol ⟨"a", VarType.Auto⟩, ⟨1, 1⟩, 1⟩ (by decide)).1

/-- C9: every token span a successful `read` produces has length 0 exactly
when the token is `Eof` and length at least 1 otherwise. -/
theorem c9_length_positive (ep : LineCol) (inp : Input) (ts : TokenSpan) (rest : Input)
    (h : read ep inp = (Except.ok ts, rest)) :
    (ts.token = Token.Eof → ts.length = 0) ∧
    (¬ ts.token = Token.Eof → 1 ≤ ts.length) := by
  have hspec := read_stepSpec ep inp
  rw [h] at hspec
  obtain ⟨taken, hdec, hok, herr⟩ := hspec
  obtain ⟨hall, hshape⟩ := hok ts rfl
  exact ⟨fun he => (hshape.eof_shape he).1, hshape.len_pos⟩

/-- C9, witness: the `Plus` token of the source `+` has length at least 1. -/
theorem c9_witness : ¬ Token.Plus = Token.Eof ∧ (1 : Nat) ≤ 1 :=
  ⟨by decide,
   (c9_length_positive (mkEndPos "+") (mkInput "+") ⟨Token.Plus, ⟨1, 1⟩, 1⟩ []
     (by decide)).2 (by decide)⟩

/-- C10: when the inner lexer read invoked by `peek` fails, the error is
propagated and the returned state has an empty token buffer (`peeked = none`)
and the advanced stream, so the next `peek` or `read` invokes the underlying
lexer again instead of replaying anything. -/
theorem c10_peek_error_no_buffer (p : PeekableLexer) (e : IoError) (rest : Input)
    (hp : p.peeked = none) (hr : EndBasic.read p.endPos p.inp = (Except.error e, rest)) :
    PeekableLexer.peek p = (Except.error e, ⟨p.endPos, rest, none⟩) ∧
    (⟨p.endPos, rest, none⟩ : PeekableLexer).peeked = none := by
  constructor
  · unfold PeekableLexer.peek
    rw [hp, hr]
  · rfl

/-- C10, witness: a reader error on the first peek leaves the buffer empty. -/
theorem c10_witness :
    PeekableLexer.peek ⟨⟨1, 1⟩, [RdItem.err "boom"], none⟩
      = (Except.error "boom", ⟨⟨1, 1⟩, [], none⟩) :=
  (c10_peek_error_no_buffer ⟨⟨1, 1⟩, [RdItem.err "boom"], none⟩ "boom" [] rfl
    (by decide)).1

end EndBasic
